import Mathlib

/-!
Verification development for the grid-conforming logic of
`fmriprep/interfaces/images.py`: the Grid Unifier (`ConformSeries._run_interface`),
the Reference Grid Synthesizer (`_gen_reference`), and the dimensionality
handling of `IntraModalMerge._run_interface`.

Conventions of the embedding:
  * machine floats are modelled as exact rationals (`ℚ`);
  * a volumetric image is its first three axes (the code operates on 3-D
    series; `get_zooms()[:3]` and 3-D shapes);
  * the external resampling collaborator (nilearn/nibabel) is modelled by its
    contract: a resample call is recorded symbolically together with the exact
    arguments the code passes to it, and the image the call returns carries the
    target affine and target shape the code requested;
  * voxel contents are opaque: `VoxelData` records symbolically which
    operations produced an array, since no interpolation kernel lives in this
    code.
-/

namespace FmriprepImages

/-- Orientation of an image's three axes in the style of `nib.io_orientation`:
axis `i` of the array corresponds to canonical axis `(ornt i).1`, flipped when
`(ornt i).2` is true. -/
abbrev Ornt := Fin 3 → Fin 3 × Bool

/-- The closest-canonical orientation: identity axis order, no flips. -/
def canonicalOrnt : Ornt := fun i => (i, false)

/-- Spatial unit reported by a NIfTI header's `get_xyzt_units()[0]`.
nibabel decodes the spatial unit to exactly one of these four values. -/
inductive XyzUnit where
  | unknown
  | meter
  | mm
  | micron
deriving DecidableEq

/-- A 4x4 voxel-to-world affine with its homogeneous bottom row fixed to
`[0,0,0,1]` (as in `np.eye(4)` with only the `[:3,:3]` block and `[:3,3]`
column ever assigned): a 3x3 linear part plus a translation column. -/
structure Affine where
  linear : Fin 3 → Fin 3 → ℚ
  trans : Fin 3 → ℚ
deriving DecidableEq

/-- Symbolic voxel contents.  The actual arrays live in external libraries;
the code only moves them through reorientation and resampling calls, so an
array is identified by the call tree that produced it. -/
inductive VoxelData where
  | raw (id : ℕ)
  | reorientedOf (d : VoxelData) (o : Ornt)
  | resampledOf (d : VoxelData) (a : Affine) (ts : Fin 3 → ℕ)
deriving DecidableEq

/-- A loaded volumetric image: voxel array, voxel-grid shape, header zooms
(`header.get_zooms()[:3]`), voxel-to-world affine, reported spatial unit and
axis orientation. -/
structure Image where
  data : VoxelData
  shape : Fin 3 → ℕ
  zooms : Fin 3 → ℚ
  affine : Affine
  xyz_unit : XyzUnit
  ornt : Ornt
deriving DecidableEq

/-- 3x3 matrix product, as `np.dot` on the `[:3,:3]` blocks. -/
def matMul3 (a b : Fin 3 → Fin 3 → ℚ) : Fin 3 → Fin 3 → ℚ :=
  fun i j => a i 0 * b 0 j + a i 1 * b 1 j + a i 2 * b 2 j

/-- Mirrors `np.diag` of a 3-vector. -/
def diag3 (d : Fin 3 → ℚ) : Fin 3 → Fin 3 → ℚ :=
  fun i j => if i = j then d i else 0

/-- Squared Euclidean norm of column `j` of a 3x3 matrix.  nibabel derives the
pixdims written to disk as the column norms of the affine's linear part, so
this is the square of the re-measured voxel spacing along axis `j`. -/
def colNormSq (m : Fin 3 → Fin 3 → ℚ) (j : Fin 3) : ℚ :=
  m 0 j ^ 2 + m 1 j ^ 2 + m 2 j ^ 2

/-- Square of the spacing that re-measuring an image (reading the file back)
reports on axis `j`: the squared column norm of its affine's linear part. -/
def measuredZoomsSq (img : Image) (j : Fin 3) : ℚ :=
  colNormSq img.affine.linear j

/-- Default relative tolerance of `np.allclose` (`rtol=1e-05`), which the
code leaves at its default while passing only `atol`. -/
def rtol : ℚ := 1 / 100000

/-- One comparison of `np.isclose`: `|a - b| <= atol + rtol * |b|`. -/
def isCloseQ (a b atol : ℚ) : Bool :=
  decide (|a - b| ≤ atol + rtol * |b|)

/-- Mirrors `np.allclose(a, b, atol=atol)` on 3-vectors (with numpy's default
`rtol = 1e-05`). -/
def allcloseQ (a b : Fin 3 → ℚ) (atol : ℚ) : Bool :=
  isCloseQ (a 0) (b 0) atol && isCloseQ (a 1) (b 1) atol && isCloseQ (a 2) (b 2) atol

/-- Mirrors `np.all(shape == target_shape)` on 3-vectors. -/
def shapeEqB (s t : Fin 3 → ℕ) : Bool :=
  decide (s 0 = t 0) && decide (s 1 = t 1) && decide (s 2 = t 2)

/-- Truncation toward zero, as numpy's `astype(int)` on a float. -/
def ratTrunc (q : ℚ) : ℤ :=
  if 0 ≤ q then ⌊q⌋ else ⌈q⌉

/-- Round-half-to-even on a rational, as numpy's `np.round` on a scalar. -/
def roundHalfEven (q : ℚ) : ℤ :=
  if q - ⌊q⌋ < 1 / 2 then ⌊q⌋
  else if 1 / 2 < q - ⌊q⌋ then ⌊q⌋ + 1
  else if Even ⌊q⌋ then ⌊q⌋ else ⌊q⌋ + 1

/-- Mirrors `np.round(x, 3)`: round to 3 decimal places (half to even). -/
def round3 (q : ℚ) : ℚ :=
  (roundHalfEven (q * 1000) : ℚ) / 1000

/-- Maximum of a nonempty collection, given as base value plus list
(an empty list yields the base value). -/
def foldMax (a : ℕ) (l : List ℕ) : ℕ :=
  l.foldl max a

/-- Minimum of a nonempty collection, given as base value plus list
(an empty list yields the base value). -/
def foldMin (a : ℚ) (l : List ℚ) : ℚ :=
  l.foldl min a

/-- Mirrors `np.max([img.shape for img in imgs], axis=0)`: per-axis maximum
shape of the series. -/
def targetShape (imgs : List Image) : Fin 3 → ℕ :=
  match imgs with
  | [] => fun _ => 0
  | im0 :: rest => fun i => foldMax (im0.shape i) (rest.map (fun im => im.shape i))

/-- Mirrors `np.min([img.header.get_zooms()[:3] for img in imgs], axis=0)`:
per-axis minimum spacing of the series. -/
def targetZooms (imgs : List Image) : Fin 3 → ℚ :=
  match imgs with
  | [] => fun _ => 0
  | im0 :: rest => fun i => foldMin (im0.zooms i) (rest.map (fun im => im.zooms i))

/-- The lookup `\x7b'meter': 5e-5, 'mm': 0.05, 'micron': 50\x7d[xyz_unit]` after the
`if xyz_unit == 'unknown': xyz_unit = 'mm'` default.  The replacement makes
the `unknown` arm of the lookup unreachable; its value here repeats the `mm`
entry. -/
def atolOf (u : XyzUnit) : ℚ :=
  match (if u = XyzUnit.unknown then XyzUnit.mm else u) with
  | XyzUnit.meter => 1 / 20000
  | XyzUnit.mm => 1 / 20
  | XyzUnit.micron => 50
  | XyzUnit.unknown => 1 / 20

/-- Mirrors `rescale = not np.allclose(zooms, target_zooms, atol=atol)` for an
(already reoriented) image. -/
def rescaleOf (img : Image) (tz : Fin 3 → ℚ) : Bool :=
  !(allcloseQ img.zooms tz (atolOf img.xyz_unit))

/-- Mirrors `resize = not np.all(shape == target_shape)`. -/
def resizeOf (img : Image) (ts : Fin 3 → ℕ) : Bool :=
  !(shapeEqB img.shape ts)

/-- Modelled from the spec (§4.1, Canonical Orientation Normalizer): the axis
permutation/flip computation of `nb.as_closest_canonical` lives in the
external image library, not in this repository.  Per the spec it is a pure
affine/array relabeling, no resampling: axis `i` of the result is axis
`(ornt i).1` of the input, with the corresponding affine column negated on a
flip.  The spec does not give a formula for the translation of flipped axes;
it is kept unchanged here (no claim exercises a flipped input). -/
def reorientImage (img : Image) : Image :=
  { data := VoxelData.reorientedOf img.data img.ornt
  , shape := fun i => img.shape (img.ornt i).1
  , zooms := fun i => img.zooms (img.ornt i).1
  , affine :=
      { linear := fun i j =>
          (if (img.ornt j).2 then -1 else 1) * img.affine.linear i (img.ornt j).1
      , trans := img.affine.trans }
  , xyz_unit := img.xyz_unit
  , ornt := canonicalOrnt }

/-- Mirrors `nb.as_closest_canonical(img)`: returns the very same object when the
image is already in closest-canonical orientation (so the later
`final is orig` identity test succeeds), otherwise a reoriented copy. -/
def asClosestCanonical (img : Image) : Image :=
  if img.ornt = canonicalOrnt then img else reorientImage img

/-- Mirrors `size_factor = (target_shape.astype(float) + shape) / (2 * shape)`. -/
def sizeFactor (ts sh : Fin 3 → ℕ) (i : Fin 3) : ℚ :=
  ((ts i : ℚ) + (sh i : ℚ)) / (2 * (sh i : ℚ))

/-- The target affine synthesized for an image needing rescale and/or resize
(`ConformSeries._run_interface`, the `if rescale or resize` block):
starts from `np.eye(4)`;
linear block `diag(target_zooms / zooms).dot(affine[:3,:3])` when rescaling,
else the original linear block;
translation `affine[:3,3] + (affine[:3,3] * size_factor - affine[:3,3]).astype(int)`
when resizing, else the original translation. -/
def mkTargetAffine (img : Image) (ts : Fin 3 → ℕ) (tz : Fin 3 → ℚ)
    (rescale resize : Bool) : Affine :=
  { linear :=
      if rescale then
        matMul3 (diag3 (fun i => tz i / img.zooms i)) img.affine.linear
      else img.affine.linear
  , trans :=
      if resize then
        fun i => img.affine.trans i +
          (ratTrunc (img.affine.trans i * sizeFactor ts img.shape i
                      - img.affine.trans i) : ℚ)
      else img.affine.trans }

/-- A call to the external resampling collaborator
(`nli.resample_img(img, target_affine, target_shape)`), recorded with the
exact arguments passed. -/
structure ResampleCall where
  src : Image
  targetAffine : Affine
  ts : Fin 3 → ℕ
deriving DecidableEq

/-- Mirrors `img.__class__(data, target_affine, img.header)`: the replacement image
built from the collaborator's resampled data, the synthesized target affine
and the (copied) original header.  Its on-disk shape is the target shape; its
on-disk pixdims are re-derived from `target_affine` by nibabel when the file
is written (see `measuredZoomsSq`); the header's zooms field itself is the
copied original one. -/
def rebuildImage (img : Image) (a : Affine) (ts : Fin 3 → ℕ) : Image :=
  { data := VoxelData.resampledOf img.data a ts
  , shape := ts
  , zooms := img.zooms
  , affine := a
  , xyz_unit := img.xyz_unit
  , ornt := img.ornt }

/-- Fate of one image of the series:
`copied` — `final is orig`, so the output file is a hard link or byte copy of
the input (`copyfile(..., copy=True, use_hardlink=True)`);
`written out call` — `final.to_filename(out_name)` wrote image `out`, where
`call` records the resampling-collaborator invocation (`none` when the image
was merely reoriented and no resampling happened). -/
inductive Outcome where
  | copied
  | written (out : Image) (call : Option ResampleCall)
deriving DecidableEq

/-- The per-image body of the `ConformSeries` loop, together with the final
`final is orig` dispatch: reorient, decide `rescale`/`resize` against the
target grid, resample onto the synthesized target affine when either holds,
otherwise pass the image through (a byte copy exactly when the reoriented
image is the original object, i.e. the input was already canonical). -/
def conformImage (img0 : Image) (ts : Fin 3 → ℕ) (tz : Fin 3 → ℚ) : Outcome :=
  if rescaleOf (asClosestCanonical img0) tz || resizeOf (asClosestCanonical img0) ts then
    Outcome.written
      (rebuildImage (asClosestCanonical img0)
        (mkTargetAffine (asClosestCanonical img0) ts tz
          (rescaleOf (asClosestCanonical img0) tz)
          (resizeOf (asClosestCanonical img0) ts)) ts)
      (some
        { src := asClosestCanonical img0
        , targetAffine := mkTargetAffine (asClosestCanonical img0) ts tz
            (rescaleOf (asClosestCanonical img0) tz)
            (resizeOf (asClosestCanonical img0) ts)
        , ts := ts })
  else if img0.ornt = canonicalOrnt then Outcome.copied
  else Outcome.written (asClosestCanonical img0) none

/-- Mirrors `ConformSeries._run_interface` on a loaded series: reorient every image,
derive the common target grid, and conform each image against it, emitting
one outcome per input in input order. -/
def conformSeries (imgs : List Image) : List Outcome :=
  let reoriented := imgs.map asClosestCanonical
  let ts := targetShape reoriented
  let tz := targetZooms reoriented
  imgs.map (fun im => conformImage im ts tz)

/-- The image content of one outcome: a copied output is byte-identical to
its input. -/
def outImage (inp : Image) : Outcome → Image
  | Outcome.copied => inp
  | Outcome.written out _ => out

/-- The resampling-collaborator invocation of one outcome, if any. -/
def resampleCallOf : Outcome → Option ResampleCall
  | Outcome.copied => none
  | Outcome.written _ c => c

/-- The images the series run writes out, in input order. -/
def conformOut (imgs : List Image) : List Image :=
  let reoriented := imgs.map asClosestCanonical
  let ts := targetShape reoriented
  let tz := targetZooms reoriented
  imgs.map (fun im => outImage im (conformImage im ts tz))

/-- Interpolation mode passed to the resampling collaborator. -/
inductive Interp where
  | continuous
  | nearest
deriving DecidableEq

/-- A reference-grid synthesis: `_gen_reference` hands the fixed image and a
3x3 *diagonal* target affine to `resample_img`; with a 3x3 target affine the
collaborator keeps the fixed image's field of view and computes the
translation itself, so the call is fully described by the fixed image, the
diagonal entries and the interpolation mode. -/
structure RefGrid where
  fixed : Image
  targetDiag : Fin 3 → ℚ
  interp : Interp
deriving DecidableEq

/-- Mirrors `_gen_reference(fixed_image, moving_image)`: read the moving image's
first three header zooms, round them to 3 decimals, and resample the fixed
image onto `np.diag` of the rounded zooms with nearest-neighbor
interpolation. -/
def genReference (fixed moving : Image) : RefGrid :=
  { fixed := fixed
  , targetDiag := fun i => round3 (moving.zooms i)
  , interp := Interp.nearest }

/-- Squared spacing of the synthesized reference on axis `j`: by the
collaborator's contract the returned image's linear block is the passed 3x3
target affine, whose column norms are the reference's pixdims. -/
def refSpacingSq (r : RefGrid) (j : Fin 3) : ℚ :=
  colNormSq (diag3 r.targetDiag) j

/-- Fate of a single-file `IntraModalMerge` input with voxel-array
dimensions `dims`:
`passthrough d` — returned unchanged as `out_file`/`out_avg`;
`motionCorrect d` — proceeds to the motion-correction path. -/
inductive MergeOutcome where
  | passthrough (dims : List ℕ)
  | motionCorrect (dims : List ℕ)
deriving DecidableEq

/-- Mirrors `np.squeeze`: drop every length-1 axis. -/
def squeezeDims (dims : List ℕ) : List ℕ :=
  dims.filter (fun d => d ≠ 1)

/-- The dimensionality handling of `IntraModalMerge._run_interface` for a
single input file (lines 84-103): a 5-D array is squeezed, and if it is
still 5-D a fatal `RuntimeError('Input image (...) is 5D')` is raised; an
array that squeezes below 4-D is returned unchanged (no error of any kind);
otherwise the motion-correction path runs. -/
def intraModalSingle (dims : List ℕ) : Except String MergeOutcome :=
  if dims.length = 5 then
    let sq := squeezeDims dims
    if sq.length = 5 then
      Except.error "Input image is 5D"
    else if (squeezeDims sq).length < 4 then
      Except.ok (MergeOutcome.passthrough sq)
    else
      Except.ok (MergeOutcome.motionCorrect sq)
  else if (squeezeDims dims).length < 4 then
    Except.ok (MergeOutcome.passthrough dims)
  else
    Except.ok (MergeOutcome.motionCorrect dims)

/-! ### Basic lemmas about the fold-based maxima and minima -/

theorem foldMax_cons (a b : ℕ) (t : List ℕ) : foldMax a (b :: t) = foldMax (max a b) t := rfl

theorem foldMin_cons (a b : ℚ) (t : List ℚ) : foldMin a (b :: t) = foldMin (min a b) t := rfl

theorem le_foldMax_init (a : ℕ) (l : List ℕ) : a ≤ foldMax a l := by
  induction l generalizing a with
  | nil => exact le_refl a
  | cons b t ih => exact le_trans (le_max_left a b) (ih (max a b))

theorem le_foldMax_of_mem {x : ℕ} {l : List ℕ} (a : ℕ) (h : x ∈ l) : x ≤ foldMax a l := by
  induction l generalizing a with
  | nil => cases h
  | cons b t ih =>
    rcases List.mem_cons.mp h with rfl | hm
    · exact le_trans (le_max_right a x) (le_foldMax_init (max a x) t)
    · exact ih (max a b) hm

theorem foldMax_eq_init_or_mem (a : ℕ) (l : List ℕ) :
    foldMax a l = a ∨ foldMax a l ∈ l := by
  induction l generalizing a with
  | nil => exact Or.inl rfl
  | cons b t ih =>
    rw [foldMax_cons]
    rcases ih (max a b) with h | h
    · rcases max_choice a b with hm | hm
      · exact Or.inl (by rw [h, hm])
      · exact Or.inr (by rw [h, hm]; exact List.mem_cons_self b t)
    · exact Or.inr (List.mem_cons_of_mem b h)

theorem foldMax_eq_of_all (a : ℕ) (l : List ℕ) (h : ∀ x ∈ l, x = a) : foldMax a l = a := by
  induction l with
  | nil => rfl
  | cons b t ih =>
    rw [foldMax_cons, h b (List.mem_cons_self b t), max_self]
    exact ih fun x hx => h x (List.mem_cons_of_mem b hx)

theorem foldMin_le_init (a : ℚ) (l : List ℚ) : foldMin a l ≤ a := by
  induction l generalizing a with
  | nil => exact le_refl a
  | cons b t ih => exact le_trans (ih (min a b)) (min_le_left a b)

theorem foldMin_le_of_mem {x : ℚ} {l : List ℚ} (a : ℚ) (h : x ∈ l) : foldMin a l ≤ x := by
  induction l generalizing a with
  | nil => cases h
  | cons b t ih =>
    rcases List.mem_cons.mp h with rfl | hm
    · exact le_trans (foldMin_le_init (min a x) t) (min_le_right a x)
    · exact ih (min a b) hm

theorem foldMin_eq_init_or_mem (a : ℚ) (l : List ℚ) :
    foldMin a l = a ∨ foldMin a l ∈ l := by
  induction l generalizing a with
  | nil => exact Or.inl rfl
  | cons b t ih =>
    rw [foldMin_cons]
    rcases ih (min a b) with h | h
    · rcases min_choice a b with hm | hm
      · exact Or.inl (by rw [h, hm])
      · exact Or.inr (by rw [h, hm]; exact List.mem_cons_self b t)
    · exact Or.inr (List.mem_cons_of_mem b h)

theorem foldMin_eq_of_all (a : ℚ) (l : List ℚ) (h : ∀ x ∈ l, x = a) : foldMin a l = a := by
  induction l with
  | nil => rfl
  | cons b t ih =>
    rw [foldMin_cons, h b (List.mem_cons_self b t), min_self]
    exact ih fun x hx => h x (List.mem_cons_of_mem b hx)

/-! ### Lemmas about the target grid -/

theorem targetShape_ge (im0 : Image) (rest : List Image) {img : Image}
    (h : img ∈ im0 :: rest) (i : Fin 3) :
    img.shape i ≤ targetShape (im0 :: rest) i := by
  rcases List.mem_cons.mp h with rfl | hm
  · exact le_foldMax_init _ _
  · exact le_foldMax_of_mem _ (List.mem_map_of_mem (fun im => im.shape i) hm)

theorem targetShape_attained (im0 : Image) (rest : List Image) (i : Fin 3) :
    ∃ img ∈ im0 :: rest, targetShape (im0 :: rest) i = img.shape i := by
  rcases foldMax_eq_init_or_mem (im0.shape i) (rest.map fun im => im.shape i) with h | h
  · exact ⟨im0, List.mem_cons_self im0 rest, h⟩
  · rcases List.mem_map.mp h with ⟨img, hmem, heq⟩
    exact ⟨img, List.mem_cons_of_mem im0 hmem, heq.symm⟩

theorem targetZooms_le (im0 : Image) (rest : List Image) {img : Image}
    (h : img ∈ im0 :: rest) (i : Fin 3) :
    targetZooms (im0 :: rest) i ≤ img.zooms i := by
  rcases List.mem_cons.mp h with rfl | hm
  · exact foldMin_le_init _ _
  · exact foldMin_le_of_mem _ (List.mem_map_of_mem (fun im => im.zooms i) hm)

theorem targetZooms_attained (im0 : Image) (rest : List Image) (i : Fin 3) :
    ∃ img ∈ im0 :: rest, targetZooms (im0 :: rest) i = img.zooms i := by
  rcases foldMin_eq_init_or_mem (im0.zooms i) (rest.map fun im => im.zooms i) with h | h
  · exact ⟨im0, List.mem_cons_self im0 rest, h⟩
  · rcases List.mem_map.mp h with ⟨img, hmem, heq⟩
    exact ⟨img, List.mem_cons_of_mem im0 hmem, heq.symm⟩

theorem targetZooms_pos (im0 : Image) (rest : List Image)
    (h : ∀ img ∈ im0 :: rest, ∀ i : Fin 3, 0 < img.zooms i) (i : Fin 3) :
    0 < targetZooms (im0 :: rest) i := by
  rcases targetZooms_attained im0 rest i with ⟨img, hmem, heq⟩
  rw [heq]
  exact h img hmem i

/-! ### Lemmas about the element-wise comparisons -/

theorem allcloseQ_true_iff (a b : Fin 3 → ℚ) (atol : ℚ) :
    allcloseQ a b atol = true ↔ ∀ i : Fin 3, |a i - b i| ≤ atol + rtol * |b i| := by
  constructor
  · intro h i
    simp only [allcloseQ, isCloseQ, Bool.and_eq_true, decide_eq_true_eq] at h
    fin_cases i
    · exact h.1.1
    · exact h.1.2
    · exact h.2
  · intro h
    simp only [allcloseQ, isCloseQ, Bool.and_eq_true, decide_eq_true_eq]
    exact ⟨⟨h 0, h 1⟩, h 2⟩

theorem shapeEqB_true_iff (s t : Fin 3 → ℕ) :
    shapeEqB s t = true ↔ ∀ i : Fin 3, s i = t i := by
  constructor
  · intro h i
    simp only [shapeEqB, Bool.and_eq_true, decide_eq_true_eq] at h
    fin_cases i
    · exact h.1.1
    · exact h.1.2
    · exact h.2
  · intro h
    simp only [shapeEqB, Bool.and_eq_true, decide_eq_true_eq]
    exact ⟨⟨h 0, h 1⟩, h 2⟩

theorem atolOf_pos (u : XyzUnit) : 0 < atolOf u := by
  cases u
  · show (0 : ℚ) < 1 / 20
    norm_num
  · show (0 : ℚ) < 1 / 20000
    norm_num
  · show (0 : ℚ) < 1 / 20
    norm_num
  · show (0 : ℚ) < 50
    norm_num

theorem allcloseQ_of_le_atol (a b : Fin 3 → ℚ) (atol : ℚ)
    (h : ∀ i : Fin 3, |a i - b i| ≤ atol) : allcloseQ a b atol = true := by
  rw [allcloseQ_true_iff]
  intro i
  have h1 : 0 ≤ rtol * |b i| := mul_nonneg (by norm_num [rtol]) (abs_nonneg _)
  linarith [h i]

/-! ### Lemmas about the affine arithmetic -/

theorem matMul3_diag3 (d : Fin 3 → ℚ) (m : Fin 3 → Fin 3 → ℚ) (i j : Fin 3) :
    matMul3 (diag3 d) m i j = d i * m i j := by
  fin_cases i <;> simp [matMul3, diag3, Fin.ext_iff]

theorem ratio_sq_le_one {t z : ℚ} (ht : 0 < t) (hz : 0 < z) (hle : t ≤ z) :
    (t / z) ^ 2 ≤ 1 := by
  have h1 : t / z ≤ 1 := (div_le_one hz).mpr hle
  have h0 : 0 ≤ t / z := le_of_lt (div_pos ht hz)
  calc (t / z) ^ 2 ≤ 1 ^ 2 := pow_le_pow_left₀ h0 h1 2
  _ = 1 := one_pow 2

theorem colNormSq_scaled_le (s : Fin 3 → ℚ) (m : Fin 3 → Fin 3 → ℚ) (j : Fin 3)
    (h : ∀ i : Fin 3, s i ^ 2 ≤ 1) :
    colNormSq (matMul3 (diag3 s) m) j ≤ colNormSq m j := by
  have hterm : ∀ i : Fin 3, matMul3 (diag3 s) m i j ^ 2 ≤ m i j ^ 2 := by
    intro i
    rw [matMul3_diag3, mul_pow]
    calc s i ^ 2 * m i j ^ 2 ≤ 1 * m i j ^ 2 :=
          mul_le_mul_of_nonneg_right (h i) (sq_nonneg _)
    _ = m i j ^ 2 := one_mul _
  exact add_le_add (add_le_add (hterm 0) (hterm 1)) (hterm 2)

theorem roundHalfEven_nonneg {q : ℚ} (h : 0 ≤ q) : 0 ≤ roundHalfEven q := by
  have hf : (0 : ℤ) ≤ ⌊q⌋ := Int.le_floor.mpr (by exact_mod_cast h)
  unfold roundHalfEven
  split
  · exact hf
  · split
    · omega
    · split <;> omega

theorem round3_nonneg {q : ℚ} (h : 0 ≤ q) : 0 ≤ round3 q := by
  unfold round3
  have : (0 : ℤ) ≤ roundHalfEven (q * 1000) :=
    roundHalfEven_nonneg (mul_nonneg h (by norm_num))
  positivity

/-! ### Lemmas about reorientation and the conform loop -/

theorem asClosestCanonical_of_canonical (img : Image) (h : img.ornt = canonicalOrnt) :
    asClosestCanonical img = img := by
  simp [asClosestCanonical, h]

theorem map_id_of_all {α : Type} (l : List α) (f : α → α) (h : ∀ x ∈ l, f x = x) :
    l.map f = l := by
  induction l with
  | nil => rfl
  | cons a t ih =>
    simp only [List.map_cons]
    rw [h a (List.mem_cons_self a t), ih fun x hx => h x (List.mem_cons_of_mem a hx)]

theorem map_eq_map_of_all {α β : Type} (l : List α) (f g : α → β)
    (h : ∀ x ∈ l, f x = g x) : l.map f = l.map g := by
  induction l with
  | nil => rfl
  | cons a t ih =>
    simp only [List.map_cons]
    rw [h a (List.mem_cons_self a t), ih fun x hx => h x (List.mem_cons_of_mem a hx)]

theorem conformImage_eq_copied (img : Image) (ts : Fin 3 → ℕ) (tz : Fin 3 → ℚ)
    (hc : img.ornt = canonicalOrnt)
    (h1 : rescaleOf img tz = false) (h2 : resizeOf img ts = false) :
    conformImage img ts tz = Outcome.copied := by
  unfold conformImage
  rw [asClosestCanonical_of_canonical img hc, h1, h2]
  simp [hc]

theorem conformOut_length (imgs : List Image) : (conformOut imgs).length = imgs.length := by
  simp [conformOut]

theorem conformSeries_length (imgs : List Image) :
    (conformSeries imgs).length = imgs.length := by
  simp [conformSeries]

theorem atolOf_mm : atolOf XyzUnit.mm = 1 / 20 := rfl

/-! ### Claim theorems -/

/-- C1: For every non-empty input series, the Grid Unifier's target grid is
the element-wise maximum of the input shapes and the element-wise minimum of
the input spacings, and every output image's shape is at least its original
shape on every axis while its (re-measured) spacing is at most its original
spacing on every axis — proved exactly, which is stronger than "within the
configured tolerance".  Hypotheses: the inputs are in canonical orientation
(the spec's data-model invariant) and have positive header zooms. -/
theorem conform_target_grid_and_output_bounds
    (im0 : Image) (rest : List Image)
    (hcanon : ∀ img ∈ im0 :: rest, img.ornt = canonicalOrnt)
    (hpos : ∀ img ∈ im0 :: rest, ∀ i : Fin 3, 0 < img.zooms i) :
    (∀ i : Fin 3,
        (∀ img ∈ im0 :: rest,
            img.shape i ≤ targetShape ((im0 :: rest).map asClosestCanonical) i) ∧
        ∃ img ∈ im0 :: rest,
          targetShape ((im0 :: rest).map asClosestCanonical) i = img.shape i) ∧
    (∀ i : Fin 3,
        (∀ img ∈ im0 :: rest,
            targetZooms ((im0 :: rest).map asClosestCanonical) i ≤ img.zooms i) ∧
        ∃ img ∈ im0 :: rest,
          targetZooms ((im0 :: rest).map asClosestCanonical) i = img.zooms i) ∧
    ∀ (k : ℕ) (hk : k < (im0 :: rest).length) (hk2 : k < (conformOut (im0 :: rest)).length),
      (∀ i : Fin 3,
          ((im0 :: rest).get ⟨k, hk⟩).shape i ≤
            ((conformOut (im0 :: rest)).get ⟨k, hk2⟩).shape i) ∧
      ∀ i : Fin 3,
        measuredZoomsSq ((conformOut (im0 :: rest)).get ⟨k, hk2⟩) i ≤
          measuredZoomsSq ((im0 :: rest).get ⟨k, hk⟩) i := by
  have hmap : (im0 :: rest).map asClosestCanonical = im0 :: rest :=
    map_id_of_all _ _ fun img hm => asClosestCanonical_of_canonical img (hcanon img hm)
  rw [hmap]
  refine ⟨?_, ?_, ?_⟩
  · intro i
    exact ⟨fun img hm => targetShape_ge im0 rest hm i, targetShape_attained im0 rest i⟩
  · intro i
    exact ⟨fun img hm => targetZooms_le im0 rest hm i, targetZooms_attained im0 rest i⟩
  · intro k hk hk2
    have hco : conformOut (im0 :: rest) =
        (im0 :: rest).map (fun im =>
          outImage im (conformImage im (targetShape (im0 :: rest))
            (targetZooms (im0 :: rest)))) := by
      simp only [conformOut]
      rw [hmap]
    have hget : (conformOut (im0 :: rest)).get ⟨k, hk2⟩ =
        outImage ((im0 :: rest).get ⟨k, hk⟩)
          (conformImage ((im0 :: rest).get ⟨k, hk⟩)
            (targetShape (im0 :: rest)) (targetZooms (im0 :: rest))) := by
      have hk3 : k < ((im0 :: rest).map (fun im =>
          outImage im (conformImage im (targetShape (im0 :: rest))
            (targetZooms (im0 :: rest))))).length := by
        simpa using hk
      rw [List.get_of_eq hco ⟨k, hk2⟩]
      simp only [List.get_eq_getElem, List.getElem_map]
    have hmem : (im0 :: rest).get ⟨k, hk⟩ ∈ im0 :: rest := List.get_mem _ _ _
    have hcm : ((im0 :: rest).get ⟨k, hk⟩).ornt = canonicalOrnt := hcanon _ hmem
    rw [hget]
    unfold conformImage
    rw [asClosestCanonical_of_canonical _ hcm]
    by_cases hrr : (rescaleOf ((im0 :: rest).get ⟨k, hk⟩) (targetZooms (im0 :: rest)) ||
        resizeOf ((im0 :: rest).get ⟨k, hk⟩) (targetShape (im0 :: rest))) = true
    · rw [if_pos hrr]
      constructor
      · intro i
        exact targetShape_ge im0 rest hmem i
      · intro i
        show colNormSq (mkTargetAffine ((im0 :: rest).get ⟨k, hk⟩)
            (targetShape (im0 :: rest)) (targetZooms (im0 :: rest))
            (rescaleOf ((im0 :: rest).get ⟨k, hk⟩) (targetZooms (im0 :: rest)))
            (resizeOf ((im0 :: rest).get ⟨k, hk⟩) (targetShape (im0 :: rest)))).linear i ≤ _
        cases hres : rescaleOf ((im0 :: rest).get ⟨k, hk⟩) (targetZooms (im0 :: rest)) with
        | false => exact le_refl _
        | true =>
          show colNormSq (matMul3 (diag3 fun i2 =>
              targetZooms (im0 :: rest) i2 / ((im0 :: rest).get ⟨k, hk⟩).zooms i2)
              ((im0 :: rest).get ⟨k, hk⟩).affine.linear) i ≤ _
          apply colNormSq_scaled_le
          intro i2
          exact ratio_sq_le_one (targetZooms_pos im0 rest hpos i2)
            (hpos _ hmem i2) (targetZooms_le im0 rest hmem i2)
    · rw [if_neg hrr, if_pos hcm]
      exact ⟨fun i => le_refl _, fun i => le_refl _⟩

/-- C2: An input image already in canonical orientation whose shape equals
the target shape on every axis and whose spacing is within the unit's `atol`
of the target spacing is never resampled: its outcome is `copied` (a
hard-linked or byte-for-byte copied duplicate of the input file), the
resampling collaborator is not invoked for it, and its output image is the
input itself. -/
theorem conform_matching_image_is_copied
    (imgs : List Image) (k : ℕ) (hk : k < imgs.length)
    (hk2 : k < (conformSeries imgs).length)
    (hc : (imgs.get ⟨k, hk⟩).ornt = canonicalOrnt)
    (hshape : ∀ i : Fin 3,
        (imgs.get ⟨k, hk⟩).shape i = targetShape (imgs.map asClosestCanonical) i)
    (hclose : ∀ i : Fin 3,
        |(imgs.get ⟨k, hk⟩).zooms i - targetZooms (imgs.map asClosestCanonical) i| ≤
          atolOf (imgs.get ⟨k, hk⟩).xyz_unit) :
    (conformSeries imgs).get ⟨k, hk2⟩ = Outcome.copied ∧
    resampleCallOf ((conformSeries imgs).get ⟨k, hk2⟩) = none ∧
    outImage (imgs.get ⟨k, hk⟩) ((conformSeries imgs).get ⟨k, hk2⟩) = imgs.get ⟨k, hk⟩ := by
  have hmain : (conformSeries imgs).get ⟨k, hk2⟩ = Outcome.copied := by
    have hg : (conformSeries imgs).get ⟨k, hk2⟩ =
        conformImage (imgs.get ⟨k, hk⟩) (targetShape (imgs.map asClosestCanonical))
          (targetZooms (imgs.map asClosestCanonical)) := by
      simp [conformSeries, List.get_eq_getElem, List.getElem_map]
    rw [hg]
    apply conformImage_eq_copied _ _ _ hc
    · unfold rescaleOf
      rw [allcloseQ_of_le_atol _ _ _ hclose]
      rfl
    · unfold resizeOf
      rw [(shapeEqB_true_iff _ _).mpr hshape]
      rfl
  exact ⟨hmain, by rw [hmain]; rfl, by rw [hmain]; rfl⟩

/-- C3: The synthesized target affine has linear part
`diag(target_zooms / zooms) . linear` exactly when rescaling (elementwise:
row `i` is scaled by `target_zooms i / zooms i`) and the original linear part
otherwise, and translation `trans + trunc(trans * (ts + shape) / (2 * shape)
- trans)` (truncation toward zero, numpy's `astype(int)`) exactly when
resizing and the original translation otherwise. -/
theorem conform_target_affine_formula (img : Image) (ts : Fin 3 → ℕ) (tz : Fin 3 → ℚ)
    (rescale resize : Bool) :
    (∀ i j : Fin 3, (mkTargetAffine img ts tz rescale resize).linear i j =
        if rescale then tz i / img.zooms i * img.affine.linear i j
        else img.affine.linear i j) ∧
    ∀ i : Fin 3, (mkTargetAffine img ts tz rescale resize).trans i =
      if resize then
        img.affine.trans i +
          (ratTrunc (img.affine.trans i *
              (((ts i : ℚ) + (img.shape i : ℚ)) / (2 * (img.shape i : ℚ))) -
            img.affine.trans i) : ℚ)
      else img.affine.trans i := by
  constructor
  · intro i j
    cases rescale with
    | false => simp [mkTargetAffine]
    | true => simp [mkTargetAffine, matMul3_diag3]
  · intro i
    cases resize with
    | false => simp [mkTargetAffine]
    | true => simp [mkTargetAffine, sizeFactor]

/-- C4: The Reference Grid Synthesizer resamples the fixed image with
nearest-neighbor interpolation onto the diagonal affine of the moving image's
first three zooms rounded to 3 decimals: the returned reference's spacing
equals the rounded moving zooms (stated via squared column norms), the target
affine is purely diagonal (no rotation relative to the fixed image), and the
scenario spacing (1.0001, 1.0002, 0.9999) rounds to (1, 1, 1). -/
theorem genReference_matches_moving_zooms
    (f m : Image) (h : ∀ i : Fin 3, 0 ≤ m.zooms i) :
    (genReference f m).fixed = f ∧
    (genReference f m).interp = Interp.nearest ∧
    (∀ i : Fin 3, (genReference f m).targetDiag i = round3 (m.zooms i)) ∧
    (∀ i j : Fin 3, i ≠ j → diag3 (genReference f m).targetDiag i j = 0) ∧
    (∀ j : Fin 3, refSpacingSq (genReference f m) j = round3 (m.zooms j) ^ 2 ∧
        0 ≤ round3 (m.zooms j)) ∧
    round3 (10001 / 10000) = 1 ∧ round3 (5001 / 5000) = 1 ∧
      round3 (9999 / 10000) = 1 := by
  refine ⟨rfl, rfl, fun i => rfl, ?_, ?_, ?_, ?_, ?_⟩
  · intro i j hij
    simp [genReference, diag3, hij]
  · intro j
    refine ⟨?_, round3_nonneg (h j)⟩
    fin_cases j <;>
      simp [refSpacingSq, genReference, colNormSq, diag3, Fin.ext_iff]
  · norm_num [round3, roundHalfEven]
  · norm_num [round3, roundHalfEven]
  · norm_num [round3, roundHalfEven]

/-- C5: The absolute tolerance is selected from the fixed unit-keyed table
(meter: 5e-5 = 1/20000, millimeter: 0.05 = 1/20, micron: 50), and an image
reporting an unknown spatial unit is treated as millimeter, so the rescale
decision for an unknown-unit image is exactly the millimeter-unit decision. -/
theorem conform_atol_selection :
    atolOf XyzUnit.meter = 1 / 20000 ∧ atolOf XyzUnit.mm = 1 / 20 ∧
    atolOf XyzUnit.micron = 50 ∧ atolOf XyzUnit.unknown = atolOf XyzUnit.mm ∧
    ∀ (img : Image) (tz : Fin 3 → ℚ),
      rescaleOf { img with xyz_unit := XyzUnit.unknown } tz =
        rescaleOf { img with xyz_unit := XyzUnit.mm } tz :=
  ⟨rfl, rfl, rfl, rfl, fun _ _ => rfl⟩

/-- C6: Conforming is idempotent: on a series whose images all share one
shape, one spacing and canonical orientation, every outcome is `copied`
(byte-identical outputs), the written series equals the input series, and
re-running the unifier on its own outputs changes nothing. -/
theorem conform_idempotent_on_shared_grid
    (im0 : Image) (rest : List Image) (s : Fin 3 → ℕ) (z : Fin 3 → ℚ)
    (h : ∀ img ∈ im0 :: rest, img.shape = s ∧ img.zooms = z ∧ img.ornt = canonicalOrnt) :
    conformSeries (im0 :: rest) = List.replicate (im0 :: rest).length Outcome.copied ∧
    conformOut (im0 :: rest) = im0 :: rest ∧
    conformSeries (conformOut (im0 :: rest)) = conformSeries (im0 :: rest) := by
  have hmap : (im0 :: rest).map asClosestCanonical = im0 :: rest :=
    map_id_of_all _ _ fun img hm => asClosestCanonical_of_canonical img (h img hm).2.2
  have hts : ∀ i : Fin 3, targetShape (im0 :: rest) i = s i := by
    intro i
    show foldMax (im0.shape i) (rest.map fun im => im.shape i) = s i
    rw [(h im0 (List.mem_cons_self im0 rest)).1]
    apply foldMax_eq_of_all
    intro x hx
    rcases List.mem_map.mp hx with ⟨img, hmem, rfl⟩
    rw [(h img (List.mem_cons_of_mem im0 hmem)).1]
  have htz : ∀ i : Fin 3, targetZooms (im0 :: rest) i = z i := by
    intro i
    show foldMin (im0.zooms i) (rest.map fun im => im.zooms i) = z i
    rw [(h im0 (List.mem_cons_self im0 rest)).2.1]
    apply foldMin_eq_of_all
    intro x hx
    rcases List.mem_map.mp hx with ⟨img, hmem, rfl⟩
    rw [(h img (List.mem_cons_of_mem im0 hmem)).2.1]
  have hcop : ∀ img ∈ im0 :: rest,
      conformImage img (targetShape (im0 :: rest)) (targetZooms (im0 :: rest)) =
        Outcome.copied := by
    intro img hm
    apply conformImage_eq_copied _ _ _ (h img hm).2.2
    · unfold rescaleOf
      have hall : allcloseQ img.zooms (targetZooms (im0 :: rest))
          (atolOf img.xyz_unit) = true := by
        apply allcloseQ_of_le_atol
        intro i
        rw [(h img hm).2.1, htz i, sub_self, abs_zero]
        exact le_of_lt (atolOf_pos img.xyz_unit)
      rw [hall]
      rfl
    · unfold resizeOf
      have hsh : shapeEqB img.shape (targetShape (im0 :: rest)) = true := by
        rw [shapeEqB_true_iff]
        intro i
        rw [(h img hm).1, hts i]
      rw [hsh]
      rfl
  have h1 : conformSeries (im0 :: rest) =
      List.replicate (im0 :: rest).length Outcome.copied := by
    simp only [conformSeries]
    rw [hmap]
    refine List.eq_replicate_iff.mpr ⟨by simp, ?_⟩
    intro o ho
    rcases List.mem_map.mp ho with ⟨img, hmem, rfl⟩
    exact hcop img hmem
  have h2 : conformOut (im0 :: rest) = im0 :: rest := by
    simp only [conformOut]
    rw [hmap]
    apply map_id_of_all
    intro img hm
    rw [hcop img hm]
    rfl
  exact ⟨h1, h2, by rw [h2]⟩

/-- C7: The unifier never reorders or flips axes itself: on a series of
images already in closest-canonical orientation the reorientation step is the
identity, and every output image carries exactly the orientation of its
input. -/
theorem conform_no_axis_reordering
    (imgs : List Image)
    (h : ∀ img ∈ imgs, img.ornt = canonicalOrnt) :
    imgs.map asClosestCanonical = imgs ∧
    (conformOut imgs).map Image.ornt = imgs.map Image.ornt := by
  have hmap : imgs.map asClosestCanonical = imgs :=
    map_id_of_all _ _ fun img hm => asClosestCanonical_of_canonical img (h img hm)
  refine ⟨hmap, ?_⟩
  simp only [conformOut]
  rw [hmap, List.map_map]
  apply map_eq_map_of_all
  intro img hm
  show (outImage img (conformImage img (targetShape imgs) (targetZooms imgs))).ornt =
    img.ornt
  unfold conformImage
  rw [asClosestCanonical_of_canonical img (h img hm)]
  by_cases hrr : (rescaleOf img (targetZooms imgs) || resizeOf img (targetShape imgs)) = true
  · rw [if_pos hrr]
    rfl
  · rw [if_neg hrr, if_pos (h img hm)]
    rfl

/-- C8: The rescale decision is the element-wise not-all-close test
(definitional second conjunct), and it is deterministic at the tolerance
boundary: whenever every axis differs from the target spacing by at most the
unit's `atol` — in particular strictly less than `atol`, and also exactly
`atol` — no rescale is triggered. -/
theorem rescale_decision_tolerance_boundary
    (img : Image) (tz : Fin 3 → ℚ)
    (h : ∀ i : Fin 3, |img.zooms i - tz i| ≤ atolOf img.xyz_unit) :
    rescaleOf img tz = false ∧
    rescaleOf img tz = !allcloseQ img.zooms tz (atolOf img.xyz_unit) := by
  refine ⟨?_, rfl⟩
  unfold rescaleOf
  rw [allcloseQ_of_le_atol _ _ _ h]
  rfl

/-- C9 counterexample: a 2-axis (fewer than 3 spatial axes) single input is
not rejected anywhere — the merge interface returns it unchanged with no
error, and no `DimensionalityError` exists in the code. -/
theorem merge_two_axis_image_not_rejected :
    intraModalSingle [64, 64] = Except.ok (MergeOutcome.passthrough [64, 64]) := rfl

/-- C9 (amended): only the 5-axis case that does not squeeze down to 4 or
fewer axes is fatal (a `RuntimeError`, not auto-corrected); inputs with fewer
than 4 axes — in particular fewer than 3 — pass through unchanged without any
dimensionality error. -/
theorem merge_dimensionality_handling
    (dims lowdims : List ℕ)
    (h5 : dims.length = 5) (hno1 : ∀ d ∈ dims, d ≠ 1)
    (hlow : lowdims.length < 4) (hlow1 : ∀ d ∈ lowdims, d ≠ 1) :
    intraModalSingle dims = Except.error "Input image is 5D" ∧
    intraModalSingle lowdims = Except.ok (MergeOutcome.passthrough lowdims) := by
  have hsq : squeezeDims dims = dims := by
    unfold squeezeDims
    apply List.filter_eq_self.mpr
    intro a ha
    exact decide_eq_true (hno1 a ha)
  have hsql : squeezeDims lowdims = lowdims := by
    unfold squeezeDims
    apply List.filter_eq_self.mpr
    intro a ha
    exact decide_eq_true (hlow1 a ha)
  constructor
  · unfold intraModalSingle
    rw [if_pos h5, hsq, if_pos h5]
  · unfold intraModalSingle
    rw [if_neg (by omega : ¬lowdims.length = 5), hsql, if_pos hlow]

/-- C10: The Reference Grid Synthesizer's output depends only on the fixed
image and the moving image's zooms rounded to 3 decimals: two moving images
agreeing on rounded zooms yield identical references, whatever their voxel
data, affine, shape, unit or orientation. -/
theorem genReference_ignores_moving_nonzoom_fields
    (f m1 m2 : Image)
    (h : ∀ i : Fin 3, round3 (m1.zooms i) = round3 (m2.zooms i)) :
    genReference f m1 = genReference f m2 := by
  simp only [genReference, RefGrid.mk.injEq]
  exact ⟨trivial, funext h, trivial⟩

/-! ### Concrete images used by the witnesses -/

/-- A canonical 2mm isotropic image of shape (64, 64, 30) (the spec's
scenario series, first member). -/
def imgA : Image :=
  { data := VoxelData.raw 0
  , shape := ![64, 64, 30]
  , zooms := fun _ => 2
  , affine := { linear := diag3 fun _ => 2, trans := fun _ => -60 }
  , xyz_unit := XyzUnit.mm
  , ornt := canonicalOrnt }

/-- A canonical 2mm isotropic image of shape (64, 64, 36) (the spec's
scenario series, second member). -/
def imgB : Image :=
  { data := VoxelData.raw 1
  , shape := ![64, 64, 36]
  , zooms := fun _ => 2
  , affine := { linear := diag3 fun _ => 2, trans := fun _ => -60 }
  , xyz_unit := XyzUnit.mm
  , ornt := canonicalOrnt }

/-- An image whose third-axis spacing sits exactly at the millimeter
tolerance boundary: 2.05 = 2 + 0.05. -/
def imgBnd : Image :=
  { data := VoxelData.raw 2
  , shape := ![64, 64, 36]
  , zooms := ![2, 2, 41 / 20]
  , affine := { linear := diag3 fun _ => 2, trans := fun _ => -60 }
  , xyz_unit := XyzUnit.mm
  , ornt := canonicalOrnt }

/-- A moving image with the spec's scenario spacing
(1.0001, 1.0002, 0.9999). -/
def movImgA : Image :=
  { data := VoxelData.raw 3
  , shape := ![60, 60, 60]
  , zooms := ![10001 / 10000, 5001 / 5000, 9999 / 10000]
  , affine := { linear := diag3 fun _ => 1, trans := fun _ => 0 }
  , xyz_unit := XyzUnit.mm
  , ornt := canonicalOrnt }

/-- A moving image sharing `movImgA`'s rounded zooms while differing in voxel
data, shape, affine, unit and orientation. -/
def movImgB : Image :=
  { data := VoxelData.raw 4
  , shape := ![10, 10, 10]
  , zooms := fun _ => 1
  , affine := { linear := diag3 fun _ => 3, trans := fun _ => 7 }
  , xyz_unit := XyzUnit.micron
  , ornt := fun i => (i, true) }

/-! ### Witnesses -/

/-- Witness for C1 on the spec's scenario series: the target shape dominates
each input shape, the target zooms are below each input's zooms, and the
first output's shape/measured spacing satisfy the bounds. -/
theorem conform_c1_witness :
    imgA.shape 2 ≤ targetShape ([imgA, imgB].map asClosestCanonical) 2 ∧
    targetZooms ([imgA, imgB].map asClosestCanonical) 2 ≤ imgA.zooms 2 ∧
    imgA.shape 2 ≤ ((conformOut [imgA, imgB]).get ⟨0, by decide⟩).shape 2 ∧
    measuredZoomsSq ((conformOut [imgA, imgB]).get ⟨0, by decide⟩) 2 ≤
      measuredZoomsSq imgA 2 := by
  have hcanon : ∀ img ∈ [imgA, imgB], img.ornt = canonicalOrnt := by
    intro img hm
    fin_cases hm <;> rfl
  have hpos : ∀ img ∈ [imgA, imgB], ∀ i : Fin 3, 0 < img.zooms i := by
    intro img hm i
    fin_cases hm <;> norm_num [imgA, imgB]
  have h := conform_target_grid_and_output_bounds imgA [imgB] hcanon hpos
  exact ⟨(h.1 2).1 imgA (by simp), (h.2.1 2).1 imgA (by simp),
    (h.2.2 0 (by decide) (by decide)).1 2, (h.2.2 0 (by decide) (by decide)).2 2⟩

/-- Witness for C2: a singleton series already on its target grid is copied
untouched. -/
theorem conform_c2_witness :
    (conformSeries [imgB]).get ⟨0, by decide⟩ = Outcome.copied ∧
    resampleCallOf ((conformSeries [imgB]).get ⟨0, by decide⟩) = none ∧
    outImage ([imgB].get ⟨0, by decide⟩) ((conformSeries [imgB]).get ⟨0, by decide⟩) =
      [imgB].get ⟨0, by decide⟩ := by
  apply conform_matching_image_is_copied [imgB] 0 (by decide) (by decide) rfl
  · intro i
    rfl
  · intro i
    show |imgB.zooms i - targetZooms ([imgB].map asClosestCanonical) i| ≤
      atolOf imgB.xyz_unit
    have hm : [imgB].map asClosestCanonical = [imgB] := by
      apply map_id_of_all
      intro x hx
      fin_cases hx
      exact asClosestCanonical_of_canonical imgB rfl
    rw [hm]
    show |(2 : ℚ) - 2| ≤ 1 / 20
    norm_num

/-- Witness for C4: the synthesized reference for the scenario moving image
uses nearest-neighbor interpolation, a diagonal of the rounded zooms, and
spacing equal to the rounded zooms. -/
theorem genReference_c4_witness :
    (genReference imgA movImgA).interp = Interp.nearest ∧
    (genReference imgA movImgA).targetDiag 0 = round3 (movImgA.zooms 0) ∧
    refSpacingSq (genReference imgA movImgA) 0 = round3 (movImgA.zooms 0) ^ 2 ∧
    round3 (10001 / 10000) = 1 := by
  have h := genReference_matches_moving_zooms imgA movImgA
    (by intro i; fin_cases i <;> norm_num [movImgA])
  exact ⟨h.2.1, h.2.2.1 0, (h.2.2.2.2.1 0).1, h.2.2.2.2.2.1⟩

/-- Witness for C6: a singleton series on one shared grid is a no-op and
re-running the unifier on its outputs changes nothing. -/
theorem conform_c6_witness :
    conformSeries [imgB] = List.replicate 1 Outcome.copied ∧
    conformOut [imgB] = [imgB] ∧
    conformSeries (conformOut [imgB]) = conformSeries [imgB] :=
  conform_idempotent_on_shared_grid imgB [] imgB.shape imgB.zooms
    (by intro img hm; fin_cases hm; exact ⟨rfl, rfl, rfl⟩)

/-- Witness for C7: a canonical singleton series passes through reorientation
unchanged and its output orientation equals its input orientation. -/
theorem conform_c7_witness :
    [imgA].map asClosestCanonical = [imgA] ∧
    (conformOut [imgA]).map Image.ornt = [imgA].map Image.ornt :=
  conform_no_axis_reordering [imgA] (by intro img hm; fin_cases hm; rfl)

/-- Witness for C8 at the exact tolerance boundary: a spacing differing from
the target by exactly 0.05 (the millimeter `atol`) does not trigger a
rescale. -/
theorem rescale_boundary_witness :
    rescaleOf imgBnd (fun _ => 2) = false ∧
    rescaleOf imgBnd (fun _ => 2) =
      !allcloseQ imgBnd.zooms (fun _ => 2) (atolOf imgBnd.xyz_unit) := by
  apply rescale_decision_tolerance_boundary
  intro i
  fin_cases i <;> norm_num [imgBnd, atolOf_mm, abs_le]

/-- Witness for the amended C9: an all-nonsingleton 5-axis input is fatal,
while a 2-axis input passes through with no error. -/
theorem merge_dimensionality_witness :
    intraModalSingle [2, 3, 4, 5, 6] = Except.error "Input image is 5D" ∧
    intraModalSingle [64, 64] = Except.ok (MergeOutcome.passthrough [64, 64]) :=
  merge_dimensionality_handling [2, 3, 4, 5, 6] [64, 64] rfl (by decide)
    (by decide) (by decide)

/-- Witness for C10: two moving images with equal rounded zooms but different
voxel data (and shape, affine, unit, orientation) give identical
references. -/
theorem genReference_c10_witness :
    round3 (movImgA.zooms 0) = round3 (movImgB.zooms 0) ∧
    round3 (movImgA.zooms 2) = round3 (movImgB.zooms 2) ∧
    movImgA.data ≠ movImgB.data ∧
    genReference imgA movImgA = genReference imgA movImgB := by
  have hz : ∀ i : Fin 3, round3 (movImgA.zooms i) = round3 (movImgB.zooms i) := by
    intro i
    fin_cases i <;> norm_num [movImgA, movImgB, round3, roundHalfEven]
  exact ⟨hz 0, hz 2, by decide,
    genReference_ignores_moving_nonzoom_fields imgA movImgA movImgB hz⟩

end FmriprepImages
